import Mathlib

/-!
Verification of the arXiv API client (package `arxiv`, files `arxiv.go` and
`search.go`).

Go strings are modelled as Lean `String` / `List Char`; all inputs exercised
here are ASCII, where Go's byte-indexed operations coincide with the
character-indexed model.  Go's `uint` is modelled as `Nat` (no claim
exercises 64-bit overflow of `Start`/`Max`).  A Go run-time panic (slice
index out of range) is modelled as `Option.none`.
-/

namespace Arxiv

/-- Model of `strings.Index`: index of the first occurrence of `sub` in `s`,
`none` when `sub` does not occur (Go returns `-1`). -/
def strIndex (s sub : List Char) : Option Nat :=
  if sub.isPrefixOf s then some 0
  else
    match s with
    | [] => none
    | _ :: t => (strIndex t sub).map (· + 1)

/-- Model of `Author` (arxiv.go). -/
structure Author where
  Name : String := ""
  Affiliation : String := ""
deriving Repr, DecidableEq

/-- Model of `Paper` (arxiv.go).  `time.Time` fields are modelled as
`Option String` holding the accepted RFC 3339 text; `none` is the zero
`time.Time`. -/
structure Paper where
  URL : String := ""
  DOI : String := ""
  Updated : Option String := none
  Published : Option String := none
  Title : String := ""
  Summary : String := ""
  Categories : List String := []
  Journal : String := ""
  Authors : List Author := []
  Comment : String := ""
  Pages : Nat := 0
deriving Repr, DecidableEq

/-- Model of `Paper.ID` (arxiv.go): find `"/abs/"` in `URL`; empty string if
absent; otherwise take the rest after the marker or prepend `"arXiv:"` when
the rest has no further `"/"`. -/
def Paper.ID (p : Paper) : String :=
  match strIndex p.URL.toList "/abs/".toList with
  | none => ""
  | some i =>
    let id := p.URL.toList.drop (i + 5)
    if strIndex id "/".toList = none then ("arXiv:".toList ++ id).asString
    else id.asString

/-- Model of `Query` (arxiv.go).  The Go slice `IDList []string` is `none`
when nil and `some l` when non-nil with elements `l`. -/
structure Query where
  Query : String := ""
  IDList : Option (List String) := none
  Start : Nat := 0
  Max : Nat := 0
deriving Repr, DecidableEq

/-- Model of `NewQuery` (arxiv.go). -/
def NewQuery (searchTerm : String) (start max : Nat) : Query :=
  { Query := "all:" ++ searchTerm, IDList := none, Start := start, Max := max }

/-- Model of the `id_list` joining step of `Search` (search.go lines 33-38):
append every id followed by a comma, then slice off the final byte.  The Go
slice expression `str[:len(str)-1]` panics when `str` is empty, which is
modelled as `none`. -/
def joinIDList (ids : List String) : Option (List Char) :=
  let str := ids.foldl (fun acc id => acc ++ id.toList ++ [',']) ([] : List Char)
  if str.length = 0 then none else some str.dropLast

/-- Model of the request-parameter assembly in `Search` (search.go lines
28-42): the set of `url.Values` entries built before the HTTP call, as a
key-value list.  `none` models the panic of the `id_list` branch. -/
def buildParams (q : Query) : Option (List (String × String)) :=
  let base := if q.Query ≠ "" then [("search_query", q.Query)] else []
  match q.IDList with
  | none => some (base ++ [("start", toString q.Start), ("max_results", toString q.Max)])
  | some ids =>
    match joinIDList ids with
    | none => none
    | some s =>
        some (base ++ [("id_list", s.asString),
                       ("start", toString q.Start), ("max_results", toString q.Max)])

/-- Comma join following the spec's words: "joining entries with commas (no
trailing comma)". -/
def commaJoin : List String → String
  | [] => ""
  | [id] => id
  | id :: rest => id ++ "," ++ commaJoin rest

theorem strIndex_eq_none_iff (s sub : List Char) :
    strIndex s sub = none ↔ ¬ sub <:+: s := by
  induction s with
  | nil =>
    rw [strIndex]
    split
    · next h =>
      have hsub : sub = [] := List.prefix_nil.mp ( List.isPrefixOf_iff_prefix.mp h)
      subst hsub
      simp
    · next h =>
      have hsub : sub ≠ [] := by
        intro hc; subst hc; exact h (by simp [ List.isPrefixOf])
      simp [ List.infix_nil, hsub]
  | cons c t ih =>
    rw [strIndex]
    split
    · next h =>
      have hpre : sub <+: c :: t := List.isPrefixOf_iff_prefix.mp h
      simp [hpre.isInfix]
    · next h =>
      have hnp : ¬ sub <+: c :: t := fun hc => h ( List.isPrefixOf_iff_prefix.mpr hc)
      simp [Option.map_eq_none', ih, List.infix_cons_iff, hnp]

theorem strIndex_eq_some_iff (s sub : List Char) (i : Nat) :
    strIndex s sub = some i ↔
      (sub <+: s.drop i ∧ ∀ j, j < i → ¬ sub <+: s.drop j) := by
  induction s generalizing i with
  | nil =>
    rw [strIndex]
    split
    · next h =>
      have hsub : sub = [] := List.prefix_nil.mp ( List.isPrefixOf_iff_prefix.mp h)
      subst hsub
      constructor
      · intro h0
        obtain rfl : i = 0 := by injection h0 with h0; omega
        exact ⟨ List.nil_prefix, fun j hj => absurd hj (Nat.not_lt_zero j)⟩
      · rintro ⟨h1, h2⟩
        cases i with
        | zero => rfl
        | succ n => exact absurd List.nil_prefix (h2 0 (Nat.succ_pos n))
    · next h =>
      have hsub : sub ≠ [] := by
        intro hc; subst hc; exact h (by simp [ List.isPrefixOf])
      constructor
      · intro hc; cases hc
      · rintro ⟨h1, _⟩
        exact absurd ( List.prefix_nil.mp (by simpa using h1)) hsub
  | cons c t ih =>
    rw [strIndex]
    split
    · next h =>
      have hpre : sub <+: c :: t := List.isPrefixOf_iff_prefix.mp h
      constructor
      · intro h0
        obtain rfl : i = 0 := by injection h0 with h0; omega
        exact ⟨by simpa using hpre, fun j hj => absurd hj (Nat.not_lt_zero j)⟩
      · rintro ⟨h1, h2⟩
        cases i with
        | zero => rfl
        | succ n => exact absurd (by simpa using hpre) (h2 0 (Nat.succ_pos n))
    · next h =>
      have hnp : ¬ sub <+: c :: t := fun hc => h ( List.isPrefixOf_iff_prefix.mpr hc)
      constructor
      · intro h0
        obtain ⟨i', hi', rfl⟩ : ∃ i', strIndex t sub = some i' ∧ i = i' + 1 := by
          cases hx : strIndex t sub with
          | none => rw [hx] at h0; simp at h0
          | some k =>
            rw [hx] at h0; simp at h0
            exact ⟨k, rfl, h0.symm⟩
        obtain ⟨ha, hb⟩ := (ih i').mp hi'
        refine ⟨by simpa using ha, ?_⟩
        intro j hj
        cases j with
        | zero => simpa using hnp
        | succ m =>
          intro hc
          exact hb m (by omega) (by simpa using hc)
      · rintro ⟨h1, h2⟩
        cases i with
        | zero => exact absurd (by simpa using h1) hnp
        | succ n =>
          have hi' : strIndex t sub = some n :=
            (ih n).mpr ⟨by simpa using h1,
              fun j hj hc => h2 (j + 1) (by omega) (by simpa using hc)⟩
          rw [hi']
          rfl

theorem singleton_infix_iff (a : Char) (l : List Char) : [a] <:+: l ↔ a ∈ l := by
  constructor
  · intro h
    exact List.singleton_sublist.mp h.sublist
  · intro h
    obtain ⟨s, t, rfl⟩ := List.append_of_mem h
    exact ⟨s, t, by simp⟩

/-- C3: `Paper.ID` yields the segment after the first `"/abs/"` marker of the
URL — verbatim when that segment still contains a `'/'`, prefixed with
`"arXiv:"` when it does not — and the empty string when the URL has no
`"/abs/"` marker; including the spec's three concrete examples. -/
theorem paperID_spec :
    (∀ p : Paper, ¬ ("/abs/".toList <:+: p.URL.toList) → p.ID = "") ∧
    (∀ (p : Paper) (pre suf : List Char),
      p.URL.toList = pre ++ "/abs/".toList ++ suf →
      (∀ pre2 suf2 : List Char,
        p.URL.toList = pre2 ++ "/abs/".toList ++ suf2 → pre.length ≤ pre2.length) →
      p.ID = (if '/' ∈ suf then suf.asString else ("arXiv:".toList ++ suf).asString)) ∧
    Paper.ID { URL := "http://arxiv.org/abs/1234.5678" } = "arXiv:1234.5678" ∧
    Paper.ID { URL := "http://arxiv.org/abs/math/0309136" } = "math/0309136" ∧
    Paper.ID { URL := "http://example.org/nothing" } = "" := by
  refine ⟨?_, ?_, by decide, by decide, by decide⟩
  · intro p h
    have hnone : strIndex p.URL.data ['/', 'a', 'b', 's', '/'] = none :=
      (strIndex_eq_none_iff _ _).mpr h
    simp [Paper.ID, hnone]
  · intro p pre suf heq hmin
    have hlen5 : ("/abs/".toList : List Char).length = 5 := rfl
    have hidx : strIndex p.URL.toList "/abs/".toList = some pre.length := by
      rw [strIndex_eq_some_iff]
      constructor
      · rw [heq, List.append_assoc, List.drop_left]
        exact ⟨suf, rfl⟩
      · intro j hj hpj
        obtain ⟨rest, hrest⟩ := hpj
        have hjle : j ≤ p.URL.toList.length := by
          rw [heq]
          simp only [List.length_append]
          omega
        have hdecomp : p.URL.toList = p.URL.toList.take j ++ "/abs/".toList ++ rest := by
          conv_lhs => rw [← List.take_append_drop j p.URL.toList]
          rw [← hrest, List.append_assoc]
        have := hmin _ _ hdecomp
        rw [List.length_take] at this
        omega
    have hdrop : p.URL.toList.drop (pre.length + 5) = suf := by
      have : p.URL.toList = (pre ++ "/abs/".toList) ++ suf := by
        rw [heq, List.append_assoc]
      rw [this]
      have hl : (pre ++ "/abs/".toList).length = pre.length + 5 := by
        simp [List.length_append]
      rw [← hl, List.drop_left]
    simp only [Paper.ID, hidx]
    rw [hdrop]
    by_cases hm : '/' ∈ suf
    · have hne : strIndex suf "/".toList ≠ none := fun hc =>
        ((strIndex_eq_none_iff _ _).mp hc) ((singleton_infix_iff _ _).mpr hm)
      simp [hm]
      intro hc
      exact absurd hc hne
    · have he : strIndex suf "/".toList = none :=
        (strIndex_eq_none_iff _ _).mpr fun hc => hm ((singleton_infix_iff _ _).mp hc)
      simp [hm]
      intro hc
      exact absurd he hc

/-- C3 witness: the marker-free case and the minimal-decomposition case of
`paperID_spec` applied at concrete URLs. -/
theorem paperID_spec_witness :
    Paper.ID { URL := "http://x.org/pdf/1234" } = "" ∧
    Paper.ID { URL := "a/abs/xyz" } = "arXiv:xyz" := by
  constructor
  · exact paperID_spec.1 _ (by decide)
  · have h := paperID_spec.2.1 { URL := "a/abs/xyz" } ['a'] "xyz".toList (by decide) ?_
    · simpa using h
    · intro pre2 suf2 hdec
      cases pre2 with
      | nil => simp at hdec
      | cons x xs => simp


/-- C10: `NewQuery` prepends `"all:"` to the search term (so the stored
query is never the term verbatim), leaves `IDList` nil, and copies `Start`
and `Max`. -/
theorem newQuery_spec (searchTerm : String) (start max : Nat) :
    (NewQuery searchTerm start max).Query = "all:" ++ searchTerm ∧
    (NewQuery searchTerm start max).Query ≠ searchTerm ∧
    (NewQuery searchTerm start max).IDList = none ∧
    (NewQuery searchTerm start max).Start = start ∧
    (NewQuery searchTerm start max).Max = max := by
  refine ⟨rfl, ?_, rfl, rfl, rfl⟩
  intro hc
  have hlen := congrArg String.length hc
  have h4 : ("all:" : String).length = 4 := rfl
  rw [NewQuery] at hlen
  simp only [String.length_append, h4] at hlen
  omega

/-- C1 (the code-level fact): a non-nil but empty `IDList` makes the
parameter assembly of `Search` panic — the join produces the empty string
and `str[:len(str)-1]` is out of range — modelled as `buildParams = none`. -/
theorem buildParams_empty_idlist (q : Query) (h : q.IDList = some []) :
    buildParams q = none := by
  simp [buildParams, h, joinIDList]

/-- C1 witness: the panic at the concrete query with `IDList = []`. -/
theorem buildParams_empty_idlist_witness :
    ({ Query := "", IDList := some [], Start := 0, Max := 10 } : Query).IDList = some [] ∧
    buildParams { Query := "", IDList := some [], Start := 0, Max := 10 } = none :=
  ⟨rfl, buildParams_empty_idlist _ rfl⟩

theorem asString_data (s : String) : s.data.asString = s := rfl

theorem joinFold (ids : List String) (acc : List Char) :
    ids.foldl (fun a id => a ++ id.toList ++ [',']) acc
      = acc ++ ids.foldl (fun a id => a ++ id.toList ++ [',']) [] := by
  induction ids generalizing acc with
  | nil => simp
  | cons x xs ih =>
    rw [List.foldl_cons, List.foldl_cons, ih, ih (([] : List Char) ++ x.toList ++ [','])]
    simp

theorem joinFold_ne_nil (x : String) (xs : List String) :
    (x :: xs).foldl (fun a id => a ++ id.toList ++ [',']) ([] : List Char) ≠ [] := by
  rw [List.foldl_cons, joinFold]
  simp

theorem joinIDList_eq_commaJoin (ids : List String) (h : ids ≠ []) :
    joinIDList ids = some (commaJoin ids).toList := by
  induction ids with
  | nil => exact absurd rfl h
  | cons x xs ih =>
    cases xs with
    | nil =>
      simp only [joinIDList, List.foldl_cons, List.foldl_nil, commaJoin]
      have : (([] : List Char) ++ x.toList ++ [',']).length = x.toList.length + 1 := by simp
      rw [if_neg (by simp [this])]
      simp
    | cons y ys =>
      have hxs : (y :: ys) ≠ ([] : List String) := by simp
      have hrec := ih hxs
      simp only [joinIDList] at hrec ⊢
      rw [List.foldl_cons, joinFold]
      have hne := joinFold_ne_nil y ys
      set J := (y :: ys).foldl (fun a id => a ++ id.toList ++ [',']) ([] : List Char) with hJ
      have hJlen : ¬ J.length = 0 := by
        intro hc
        exact hne (List.length_eq_zero.mp hc)
      rw [if_neg hJlen] at hrec
      have hJdrop : J.dropLast = (commaJoin (y :: ys)).toList := by
        injection hrec
      rw [if_neg (by simp [hne, List.length_eq_zero])]
      have hcj : commaJoin (x :: y :: ys) = x ++ "," ++ commaJoin (y :: ys) := rfl
      rw [List.dropLast_append_of_ne_nil _ hne, hJdrop, hcj]
      simp [String.toList]

/-- C6 (amended with the non-nil-empty exclusion): for every query whose
`IDList` is not non-nil-and-empty, the built parameters contain
`search_query` exactly when `Query.Query` is non-empty, `id_list` exactly
when `IDList` is non-nil (entries joined with commas, no trailing comma),
and always `start` and `max_results` as decimal strings. -/
theorem buildParams_spec (q : Query) (h : q.IDList ≠ some []) :
    ∃ ps, buildParams q = some ps ∧
      ps.lookup "search_query" = (if q.Query = "" then none else some q.Query) ∧
      ps.lookup "id_list" = q.IDList.map commaJoin ∧
      ps.lookup "start" = some (toString q.Start) ∧
      ps.lookup "max_results" = some (toString q.Max) := by
  have e1 : (("search_query" == "search_query") : Bool) = true := rfl
  have e2 : (("id_list" == "search_query") : Bool) = false := rfl
  have e3 : (("id_list" == "id_list") : Bool) = true := rfl
  have e4 : (("id_list" == "start") : Bool) = false := rfl
  have e5 : (("id_list" == "max_results") : Bool) = false := rfl
  have e6 : (("start" == "search_query") : Bool) = false := rfl
  have e7 : (("start" == "id_list") : Bool) = false := rfl
  have e8 : (("start" == "start") : Bool) = true := rfl
  have e9 : (("max_results" == "search_query") : Bool) = false := rfl
  have e10 : (("max_results" == "id_list") : Bool) = false := rfl
  have e11 : (("max_results" == "start") : Bool) = false := rfl
  have e12 : (("max_results" == "max_results") : Bool) = true := rfl
  have e13 : (("search_query" == "id_list") : Bool) = false := rfl
  have e14 : (("search_query" == "start") : Bool) = false := rfl
  have e15 : (("search_query" == "max_results") : Bool) = false := rfl
  cases hid : q.IDList with
  | none =>
    by_cases hq : q.Query = ""
    · refine ⟨[("start", toString q.Start), ("max_results", toString q.Max)],
        by simp [buildParams, hid, hq], ?_, ?_, ?_, ?_⟩ <;>
        simp [List.lookup, hid, hq, e1, e2, e3, e4, e5, e6, e7, e8, e9, e10, e11, e12, e13,
          e14, e15]
    · refine ⟨[("search_query", q.Query), ("start", toString q.Start),
          ("max_results", toString q.Max)],
        by simp [buildParams, hid, hq], ?_, ?_, ?_, ?_⟩ <;>
        simp [List.lookup, hid, hq, e1, e2, e3, e4, e5, e6, e7, e8, e9, e10, e11, e12, e13,
          e14, e15]
  | some ids =>
    have hne : ids ≠ [] := by
      intro hc; subst hc; exact h hid
    have hj := joinIDList_eq_commaJoin ids hne
    by_cases hq : q.Query = ""
    · refine ⟨[("id_list", commaJoin ids), ("start", toString q.Start),
          ("max_results", toString q.Max)],
        by simp [buildParams, hid, hq, hj, asString_data], ?_, ?_, ?_, ?_⟩ <;>
        simp [List.lookup, hid, hq, e1, e2, e3, e4, e5, e6, e7, e8, e9, e10, e11, e12, e13,
          e14, e15]
    · refine ⟨[("search_query", q.Query), ("id_list", commaJoin ids),
          ("start", toString q.Start), ("max_results", toString q.Max)],
        by simp [buildParams, hid, hq, hj, asString_data], ?_, ?_, ?_, ?_⟩ <;>
        simp [List.lookup, hid, hq, e1, e2, e3, e4, e5, e6, e7, e8, e9, e10, e11, e12, e13,
          e14, e15]

/-- C6 witness: the amended statement applied at a concrete query. -/
theorem buildParams_spec_witness :
    ({ Query := "all:electron", IDList := some ["1234.5678", "math/0309136"], Start := 0,
       Max := 10 } : Query).IDList ≠ some [] ∧
    ∃ ps, buildParams { Query := "all:electron", IDList := some ["1234.5678", "math/0309136"],
                        Start := 0, Max := 10 } = some ps ∧
      ps.lookup "id_list" = some "1234.5678,math/0309136" := by
  refine ⟨by decide, ?_⟩
  obtain ⟨ps, h1, _, h3, _, _⟩ :=
    buildParams_spec { Query := "all:electron", IDList := some ["1234.5678", "math/0309136"],
                       Start := 0, Max := 10 } (by decide)
  exact ⟨ps, h1, h3⟩

/-- C6 counterexample: as literally stated the claim fails — for the non-nil
empty `IDList` no parameter list is built at all (the join panics), so in
particular no parameter set containing `id_list` exists. -/
theorem buildParams_claim_counterexample :
    ¬ ∃ ps, buildParams { Query := "", IDList := some [], Start := 0, Max := 1 } = some ps := by
  rintro ⟨ps, hps⟩
  simp [buildParams, joinIDList] at hps

/-- Character class of the regexp `[\\s\\n]` (search.go line 148); RE2 `\\s`
is `[\\t\\n\\f\\r ]`. -/
def goWS (c : Char) : Bool :=
  c = ' ' || c = '\t' || c = '\n' || c = '\x0c' || c = '\r'

/-- Character class of the cutset `" \\t\\n"` of the `strings.Trim` calls on
Title and Summary (search.go lines 189/196; both use the same set). -/
def cutWS (c : Char) : Bool :=
  c = ' ' || c = '\t' || c = '\n'

theorem length_dropWhile_le (p : Char → Bool) (l : List Char) :
    (l.dropWhile p).length ≤ l.length :=
  (List.dropWhile_suffix p).sublist.length_le

theorem dropWhile_cons_length_lt (p : Char → Bool) (c : Char) (l : List Char) :
    (l.dropWhile p).length < (c :: l).length := by
  have := length_dropWhile_le p l
  simp only [List.length_cons]
  omega

/-- Model of `spaceRe.ReplaceAll([]byte(s), []byte(" "))`: every maximal run
of `[\\s\\n]` characters becomes one space.  `inRun` records whether the
previous character belonged to a whitespace run. -/
def collapseGo (inRun : Bool) : List Char → List Char
  | [] => []
  | c :: rest =>
    if goWS c then
      if inRun then collapseGo true rest else ' ' :: collapseGo true rest
    else c :: collapseGo false rest

/-- The whole-string collapse (no run is open at the start). -/
def collapseWS (l : List Char) : List Char := collapseGo false l

/-- Model of `strings.Trim(s, " \\t\\n")`: remove leading and trailing cutset
characters. -/
def trimWS (l : List Char) : List Char := (l.dropWhile cutWS).rdropWhile cutWS

/-- The normalization applied to Title and Summary in `parsePaper`
(search.go lines 183-196): collapse whitespace runs, then trim. -/
def normalizeWS (s : String) : String := (trimWS (collapseWS s.toList)).asString

/-- After collapsing, no two adjacent characters are both whitespace. -/
def noWSrun (l : List Char) : Prop :=
  l.Chain' (fun a b => ¬(goWS a = true ∧ goWS b = true))

/-- After collapsing, every whitespace character is a plain space. -/
def wsBlank (l : List Char) : Prop :=
  ∀ c ∈ l, goWS c = true → c = ' '

theorem collapseGo_true_head (l : List Char) :
    ∀ d, (collapseGo true l).head? = some d → goWS d = false := by
  induction l with
  | nil =>
    intro d hd
    simp [collapseGo] at hd
  | cons c rest ih =>
    intro d hd
    by_cases hc : goWS c
    · simp only [collapseGo, hc, if_true] at hd
      exact ih d hd
    · simp [collapseGo, hc] at hd
      subst hd
      simpa using hc

theorem collapseGo_normalized (l : List Char) :
    ∀ b, noWSrun (collapseGo b l) ∧ wsBlank (collapseGo b l) := by
  induction l with
  | nil =>
    intro b
    constructor
    · simp [collapseGo, noWSrun]
    · intro c hc
      simp [collapseGo] at hc
  | cons c rest ih =>
    intro b
    by_cases hc : goWS c
    · cases b with
      | true =>
        have hcol : collapseGo true (c :: rest) = collapseGo true rest := by
          simp [collapseGo, hc]
        rw [hcol]
        exact ih true
      | false =>
        have hcol : collapseGo false (c :: rest) = ' ' :: collapseGo true rest := by
          simp [collapseGo, hc]
        rw [hcol]
        obtain ⟨ih1, ih2⟩ := ih true
        refine ⟨List.chain'_cons'.mpr ⟨?_, ih1⟩, ?_⟩
        · intro y hy hcontra
          have hnw := collapseGo_true_head rest y (Option.mem_def.mp hy)
          rw [hcontra.2] at hnw
          cases hnw
        · intro x hx hws
          rcases List.mem_cons.mp hx with h1 | h1
          · exact h1
          · exact ih2 x h1 hws
    · have hcol : collapseGo b (c :: rest) = c :: collapseGo false rest := by
        simp [collapseGo, hc]
      rw [hcol]
      obtain ⟨ih1, ih2⟩ := ih false
      refine ⟨List.chain'_cons'.mpr ⟨?_, ih1⟩, ?_⟩
      · intro y hy hcontra
        exact hc (by simp [hcontra.1])
      · intro x hx hws
        rcases List.mem_cons.mp hx with h1 | h1
        · subst h1
          exact absurd hws (by simpa using hc)
        · exact ih2 x h1 hws

theorem collapseWS_normalized (l : List Char) :
    noWSrun (collapseWS l) ∧ wsBlank (collapseWS l) := collapseGo_normalized l false

theorem collapseGo_fixpoint (l : List Char) :
    noWSrun l → wsBlank l →
      (collapseGo false l = l ∧
        ((∀ d, l.head? = some d → goWS d = false) → collapseGo true l = l)) := by
  induction l with
  | nil =>
    intro h1 h2
    exact ⟨rfl, fun _ => rfl⟩
  | cons c rest ih =>
    intro h1 h2
    have hrest1 : noWSrun rest := (List.chain'_cons'.mp h1).2
    have hrest2 : wsBlank rest := fun x hx hws => h2 x (by simp [hx]) hws
    obtain ⟨ihf, iht⟩ := ih hrest1 hrest2
    by_cases hc : goWS c
    · have hcsp : c = ' ' := h2 c (by simp) hc
      have hheadrest : ∀ d, rest.head? = some d → goWS d = false := by
        intro d hd
        have hhead := (List.chain'_cons'.mp h1).1 d (Option.mem_def.mpr hd)
        by_contra hcon
        exact hhead ⟨hc, by simpa using hcon⟩
      constructor
      · have hcol : collapseGo false (c :: rest) = ' ' :: collapseGo true rest := by
          simp [collapseGo, hc]
        rw [hcol, iht hheadrest, hcsp]
      · intro hhead
        have hfalse := hhead c rfl
        rw [hfalse] at hc
        simp at hc
    · constructor
      · have hcol : collapseGo false (c :: rest) = c :: collapseGo false rest := by
          simp [collapseGo, hc]
        rw [hcol, ihf]
      · intro _
        have hcol : collapseGo true (c :: rest) = c :: collapseGo false rest := by
          simp [collapseGo, hc]
        rw [hcol, ihf]

theorem collapseWS_fixpoint (l : List Char) (h1 : noWSrun l) (h2 : wsBlank l) :
    collapseWS l = l := (collapseGo_fixpoint l h1 h2).1

theorem trimWS_preserves (l : List Char) (h1 : noWSrun l) (h2 : wsBlank l) :
    noWSrun (trimWS l) ∧ wsBlank (trimWS l) := by
  have hsub : (trimWS l).Sublist l :=
    ( List.rdropWhile_prefix cutWS (l.dropWhile cutWS)).sublist.trans
      (List.dropWhile_suffix cutWS).sublist
  constructor
  · exact List.Chain'.prefix (h1.suffix (List.dropWhile_suffix cutWS))
      ( List.rdropWhile_prefix cutWS (l.dropWhile cutWS))
  · intro x hx hws
    exact h2 x (hsub.subset hx) hws

theorem trimWS_idempotent (l : List Char) : trimWS (trimWS l) = trimWS l := by
  unfold trimWS
  have hdrop1 : ((l.dropWhile cutWS).rdropWhile cutWS).dropWhile cutWS
      = (l.dropWhile cutWS).rdropWhile cutWS := by
    obtain ⟨t, ht⟩ := List.rdropWhile_prefix cutWS (l.dropWhile cutWS)
    cases hrc : (l.dropWhile cutWS).rdropWhile cutWS with
    | nil => simp
    | cons x xs =>
      have hmhead : (l.dropWhile cutWS).head? = some x := by
        rw [← ht, hrc]
        simp
      have h5 := List.head?_dropWhile_not cutWS l
      rw [hmhead] at h5
      simp only at h5
      rw [List.dropWhile_cons]
      simp [h5]
  rw [hdrop1, List.rdropWhile_idempotent]

theorem toList_asString (l : List Char) : l.asString.toList = l := rfl

/-- C8: the Title/Summary whitespace normalization (collapse every run of
whitespace to one space, then trim leading and trailing whitespace) is
idempotent. -/
theorem normalizeWS_idempotent (s : String) :
    normalizeWS (normalizeWS s) = normalizeWS s := by
  unfold normalizeWS
  rw [toList_asString]
  obtain ⟨h1, h2⟩ := collapseWS_normalized s.toList
  obtain ⟨h1t, h2t⟩ := trimWS_preserves _ h1 h2
  rw [collapseWS_fixpoint _ h1t h2t, trimWS_idempotent]

/-- Character class of `unicode.IsSpace` restricted to ASCII, the separator
class of `strings.Fields`. -/
def fieldsWS (c : Char) : Bool :=
  c = ' ' || c = '\t' || c = '\n' || c = '\x0b' || c = '\x0c' || c = '\r'

/-- Model of `strings.Fields`: split around each run of whitespace
(structured with an accumulator for the field being read). -/
def fieldsAux : List Char → List Char → List (List Char)
  | acc, [] => if acc = [] then [] else [acc.reverse]
  | acc, c :: rest =>
    if fieldsWS c then
      if acc = [] then fieldsAux [] rest else acc.reverse :: fieldsAux [] rest
    else fieldsAux (c :: acc) rest

/-- The whitespace-separated fields of a comment, as `strings.Fields`
returns them. -/
def fields (l : List Char) : List (List Char) := fieldsAux [] l

/-- Model of `strings.ToLower` on ASCII text (`Char.toLower` lowers exactly
the ASCII uppercase letters). -/
def toLowerStr (l : List Char) : List Char := l.map Char.toLower

/-- Model of `strings.Trim(field, ",")`: commas removed from both ends. -/
def trimCommas (l : List Char) : List Char :=
  (l.dropWhile (· = ',')).rdropWhile (· = ',')

/-- Model of `strconv.ParseUint(s, 10, 64)`: a non-empty all-digit string
whose value fits in 64 bits; anything else is an error. -/
def parseUint64 (l : List Char) : Option Nat :=
  if l = [] then none
  else if l.all Char.isDigit then
    let v := l.foldl (fun acc c => acc * 10 + (c.toNat - 48)) 0
    if v < 2 ^ 64 then some v else none
  else none

/-- The field test of the Pages heuristic as the code performs it
(search.go line 261-262): lowercase the field, trim commas from BOTH ends,
compare with "pages"/"page". -/
def isPageToken (f : List Char) : Bool :=
  toLowerStr (trimCommas f) = "pages".toList || toLowerStr (trimCommas f) = "page".toList

/-- The field test as the claim words it: the token is "pages" or "page"
(case-insensitive) with at most one optional TRAILING comma. -/
def specPageToken (f : List Char) : Bool :=
  toLowerStr f = "pages".toList || toLowerStr f = "page".toList ||
  toLowerStr f = "pages,".toList || toLowerStr f = "page,".toList

/-- Model of the Pages heuristic of `parsePaper` (search.go lines 259-268):
iterate over the indexed fields of the comment; each field that passes
`isPageToken` at a positive index whose predecessor parses as uint64
overwrites the page count, which starts at `init` (the paper's current
`Pages`). -/
def pagesAux (comment : List Char) (init : Nat) : Nat :=
  let fs := fields comment
  fs.enum.foldl
    (fun acc p =>
      if isPageToken p.2 = true ∧ 0 < p.1 then
        match parseUint64 (fs.getD (p.1 - 1) []) with
        | some v => v
        | none => acc
      else acc) init

/-- The Pages value derived from a comment on a fresh record (`Pages` is
zero before the first comment element). -/
def pagesOf (comment : List Char) : Nat := pagesAux comment 0

theorem foldl_invariant {α β : Type} (f : β → α → β) (C : β → Prop) (l : List α) (b : β)
    (hb : C b) (hstep : ∀ acc a, a ∈ l → C acc → C (f acc a)) : C (l.foldl f b) := by
  induction l generalizing b with
  | nil => exact hb
  | cons x xs ih =>
    exact ih (f b x) (hstep b x (by simp) hb)
      (fun acc a ha hc => hstep acc a (by simp [ha]) hc)

/-- C4 (amended: the code trims commas from both ends of the candidate
field, not only one trailing comma): `Pages` is nonzero only when some
whitespace-separated field of the comment passes the page-token test and its
predecessor parses as a non-negative 64-bit integer equal to the resulting
`Pages`; with the spec's three concrete examples. -/
theorem pagesOf_spec :
    pagesOf "5 pages, 2 figures".toList = 5 ∧
    pagesOf "10 page".toList = 10 ∧
    pagesOf "no numeric info".toList = 0 ∧
    ∀ comment : List Char, pagesOf comment ≠ 0 →
      ∃ i, 0 < i ∧ i < (fields comment).length ∧
        isPageToken ((fields comment).getD i []) = true ∧
        parseUint64 ((fields comment).getD (i - 1) []) = some (pagesOf comment) := by
  refine ⟨by decide, by decide, by decide, ?_⟩
  intro comment hnz
  have key : pagesOf comment = 0 ∨
      ∃ i, 0 < i ∧ i < (fields comment).length ∧
        isPageToken ((fields comment).getD i []) = true ∧
        parseUint64 ((fields comment).getD (i - 1) []) = some (pagesOf comment) := by
    unfold pagesOf pagesAux
    apply foldl_invariant _ (fun acc => acc = 0 ∨
      ∃ i, 0 < i ∧ i < (fields comment).length ∧
        isPageToken ((fields comment).getD i []) = true ∧
        parseUint64 ((fields comment).getD (i - 1) []) = some acc)
    · exact Or.inl rfl
    · intro acc a ha hC
      by_cases hcase : isPageToken a.2 = true ∧ 0 < a.1
      · rw [if_pos hcase]
        cases hp : parseUint64 ((fields comment).getD (a.1 - 1) []) with
        | none => exact hC
        | some v =>
          right
          have hmem : (fields comment)[a.1]? = some a.2 := by
            have := List.mk_mem_enum_iff_getElem?.mp (by
              have : (a.1, a.2) = a := rfl
              rw [this]
              exact ha)
            exact this
          have hlt : a.1 < (fields comment).length :=
            (List.getElem?_eq_some.mp hmem).1
          refine ⟨a.1, hcase.2, hlt, ?_, hp⟩
          have : (fields comment).getD a.1 [] = a.2 := by
            simp [List.getD, hmem]
          rw [this]
          exact hcase.1
      · rw [if_neg hcase]
        exact hC
  rcases key with h | h
  · exact absurd h hnz
  · exact h

/-- C4 witness: the general clause of `pagesOf_spec` at the comment
"5 pages, 2 figures". -/
theorem pagesOf_spec_witness :
    pagesOf "5 pages, 2 figures".toList ≠ 0 ∧
    ∃ i, 0 < i ∧ i < (fields "5 pages, 2 figures".toList).length ∧
      isPageToken ((fields "5 pages, 2 figures".toList).getD i []) = true ∧
      parseUint64 ((fields "5 pages, 2 figures".toList).getD (i - 1) [])
        = some (pagesOf "5 pages, 2 figures".toList) :=
  ⟨by decide, pagesOf_spec.2.2.2 _ (by decide)⟩

/-- C4 counterexample: the comment "5 ,pages" sets Pages to 5 although none
of its fields is "pages"/"page" with only an optional trailing comma — the
code also trims LEADING commas, which the claim as stated excludes. -/
theorem pagesOf_claim_counterexample :
    pagesOf "5 ,pages".toList = 5 ∧
    (fields "5 ,pages".toList).all (fun f => !specPageToken f) = true := by
  constructor
  · decide
  · decide

/-- An XML name, as in `encoding/xml.Name`: namespace URL and local name. -/
structure XmlName where
  Space : String
  Local : String
deriving Repr, DecidableEq

/-- An attribute, as in `encoding/xml.Attr`. -/
structure XmlAttr where
  Name : XmlName
  Value : String
deriving Repr, DecidableEq

/-- The tokens of `encoding/xml.Decoder.Token` that the parsers consume.
The decoder (lexing, well-formedness checking) is an external collaborator;
a response body is modelled as the list of tokens the decoder yields before
`io.EOF`. -/
inductive Token where
  | StartElement (name : XmlName) (attr : List XmlAttr)
  | EndElement (name : XmlName)
  | CharData (s : String)
deriving Repr, DecidableEq

/-- The namespace constants (search.go lines 15-18). -/
def spaceAtom : String := "http://www.w3.org/2005/Atom"

def spaceArXiv : String := "http://arxiv.org/schemas/atom"

/-- The errors the parsers produce: a wrapped read error (`io.EOF` where the
code does not handle it specially), the "expected EndElement" decode error,
and the `SearchError` of a pseudo-entry, carrying the entry's Summary. -/
inductive Err where
  | eof
  | expectedEnd
  | search (msg : String)
deriving Repr, DecidableEq

/-- Model of `getInnerValue` (search.go lines 84-108).  `cur` is the value
behind the Go pointer `ret` before the call; the result carries the value
after the call and the unread rest of the stream. -/
def getInnerValue : List Token → String → Except Err (String × List Token)
  | [], _ => .error .eof
  | .CharData s :: rest, _ =>
    match rest with
    | .EndElement _ :: rest2 => .ok (s, rest2)
    | _ :: _ => .error .expectedEnd
    | [] => .error .eof
  | .EndElement _ :: rest, cur => .ok (cur, rest)
  | .StartElement _ _ :: _, _ => .error .expectedEnd

theorem getInnerValue_length (toks : List Token) (cur : String) (v : String)
    (rest : List Token) (h : getInnerValue toks cur = .ok (v, rest)) :
    rest.length < toks.length := by
  match toks with
  | [] => simp [getInnerValue] at h
  | .CharData s :: rest1 =>
    match rest1 with
    | .EndElement _ :: rest2 =>
      simp [getInnerValue] at h
      rw [← h.2]
      simp only [List.length_cons]
      omega
    | .StartElement _ _ :: _ => simp [getInnerValue] at h
    | .CharData _ :: _ => simp [getInnerValue] at h
    | [] => simp [getInnerValue] at h
  | .EndElement _ :: rest1 =>
    simp [getInnerValue] at h
    rw [← h.2]
    simp only [List.length_cons]
    omega
  | .StartElement _ _ :: _ => simp [getInnerValue] at h

/-- C5 (amended: an end tag with no preceding text leaves the field's value
unchanged — which is the empty string exactly when the field held its fresh
zero value — and a failing read of the underlying stream surfaces the
wrapped read error instead of "expected end tag"): the full case analysis
of a leaf-field read. -/
theorem getInnerValue_spec :
    ∀ (s s2 : String) (n : XmlName) (attrs : List XmlAttr) (r : List Token) (cur : String),
      getInnerValue (.CharData s :: .EndElement n :: r) cur = .ok (s, r) ∧
      getInnerValue (.EndElement n :: r) cur = .ok (cur, r) ∧
      getInnerValue (.StartElement n attrs :: r) cur = .error .expectedEnd ∧
      getInnerValue (.CharData s :: .StartElement n attrs :: r) cur = .error .expectedEnd ∧
      getInnerValue (.CharData s :: .CharData s2 :: r) cur = .error .expectedEnd ∧
      getInnerValue [] cur = .error .eof ∧
      getInnerValue [.CharData s] cur = .error .eof := by
  intro s s2 n attrs r cur
  refine ⟨rfl, rfl, rfl, rfl, rfl, rfl, rfl⟩

/-- C5 counterexample: when the next token is an end tag and the field
already holds "prior", the value stays "prior" — not the empty string the
claim promises. -/
theorem getInnerValue_claim_counterexample :
    getInnerValue [Token.EndElement ⟨spaceAtom, "title"⟩] "prior" = .ok ("prior", []) ∧
    "prior" ≠ "" := ⟨rfl, by decide⟩

/-- Model of `parseAuthor` (search.go lines 110-146): consume tokens until
an "author" end tag (any namespace) or end of stream; `name` and
`affiliation` start tags (any namespace — only the local name is examined)
read the nested value. -/
def parseAuthor (toks : List Token) (author : Author) : Except Err (Author × List Token) :=
  match toks with
  | [] => .ok (author, [])
  | .EndElement n :: rest =>
    if n.Local = "author" then .ok (author, rest)
    else parseAuthor rest author
  | .StartElement n _ :: rest =>
    if n.Local = "name" then
      match h : getInnerValue rest author.Name with
      | .error e => .error e
      | .ok (v, rest2) => parseAuthor rest2 { author with Name := v }
    else if n.Local = "affiliation" then
      match h : getInnerValue rest author.Affiliation with
      | .error e => .error e
      | .ok (v, rest2) => parseAuthor rest2 { author with Affiliation := v }
    else parseAuthor rest author
  | .CharData _ :: rest => parseAuthor rest author
termination_by toks.length
decreasing_by
  · simp
  · have := getInnerValue_length _ _ _ _ h
    simp only [List.length_cons]
    omega
  · have := getInnerValue_length _ _ _ _ h
    simp only [List.length_cons]
    omega
  · simp
  · simp

theorem parseAuthor_length (toks : List Token) :
    ∀ (a a' : Author) (rest : List Token),
      parseAuthor toks a = .ok (a', rest) → rest.length ≤ toks.length := by
  suffices H : ∀ (n : Nat) (toks : List Token), toks.length ≤ n →
      ∀ (a a' : Author) (rest : List Token),
        parseAuthor toks a = .ok (a', rest) → rest.length ≤ toks.length from
    fun a a' rest h => H toks.length toks le_rfl a a' rest h
  intro n
  induction n with
  | zero =>
    intro toks hle a a' rest h
    have hnil : toks = [] := List.length_eq_zero.mp (Nat.le_zero.mp hle)
    subst hnil
    simp [parseAuthor] at h
    simp [h.2]
  | succ n ih =>
    intro toks hle a a' rest h
    match toks with
    | [] =>
      simp [parseAuthor] at h
      simp [h.2]
    | .EndElement nm :: rest1 =>
      simp only [parseAuthor] at h
      split at h
      · simp at h
        rw [← h.2]
        simp
      · have := ih rest1 (by simp only [List.length_cons] at hle; omega) _ _ _ h
        simp only [List.length_cons]
        omega
    | .CharData s :: rest1 =>
      simp only [parseAuthor] at h
      have := ih rest1 (by simp only [List.length_cons] at hle; omega) _ _ _ h
      simp only [List.length_cons]
      omega
    | .StartElement nm attrs :: rest1 =>
      simp only [parseAuthor] at h
      split at h
      · split at h
        · exact absurd h (by simp)
        · next v rest2 hg =>
          have hlt := getInnerValue_length _ _ _ _ hg
          have := ih rest2 (by simp only [List.length_cons] at hle; omega) _ _ _ h
          simp only [List.length_cons]
          omega
      · split at h
        · split at h
          · exact absurd h (by simp)
          · next v rest2 hg =>
            have hlt := getInnerValue_length _ _ _ _ hg
            have := ih rest2 (by simp only [List.length_cons] at hle; omega) _ _ _ h
            simp only [List.length_cons]
            omega
        · have := ih rest1 (by simp only [List.length_cons] at hle; omega) _ _ _ h
          simp only [List.length_cons]
          omega

/-- Model of `time.Parse(time.RFC3339, s)`, restricted to what the claims
need: a structural check of the layout "2006-01-02T15:04:05Z07:00" (digits
and separators, zone `Z` or a signed `hh:mm` offset; fractional seconds and
calendar range checks of the library are not modelled).  The parsed value is
represented by the accepted text itself; only success versus failure and
the stored value matter to the claims. -/
def parseRFC3339 (s : String) : Option String :=
  let l := s.toList
  let dig := fun (i : Nat) => (l.getD i ' ').isDigit
  let ch := fun (i : Nat) (c : Char) => l.getD i ' ' == c
  let date := dig 0 && dig 1 && dig 2 && dig 3 && ch 4 '-' && dig 5 && dig 6 &&
    ch 7 '-' && dig 8 && dig 9 && ch 10 'T' && dig 11 && dig 12 && ch 13 ':' &&
    dig 14 && dig 15 && ch 16 ':' && dig 17 && dig 18
  let tz := (decide (l.length = 20) && ch 19 'Z') ||
    (decide (l.length = 25) && (ch 19 '+' || ch 19 '-') && dig 20 && dig 21 &&
      ch 22 ':' && dig 23 && dig 24)
  if date && tz then some s else none

/-- Model of `strings.EqualFold` on ASCII text. -/
def eqFold (a b : String) : Bool :=
  toLowerStr a.toList = toLowerStr b.toList

instance exceptDecEq {ε α : Type} [DecidableEq ε] [DecidableEq α] :
    DecidableEq (Except ε α)
  | .ok a, .ok b =>
    if h : a = b then isTrue (by rw [h]) else isFalse (fun hc => h (Except.ok.inj hc))
  | .error a, .error b =>
    if h : a = b then isTrue (by rw [h]) else isFalse (fun hc => h (Except.error.inj hc))
  | .ok _, .error _ => isFalse (fun hc => Except.noConfusion hc)
  | .error _, .ok _ => isFalse (fun hc => Except.noConfusion hc)

/-- One iteration of the loop: either the loop finishes with a result
(`done`) or continues with the rest of the stream and the updated record
(`next`). -/
inductive LoopStep where
  | done (r : Except Err (Paper × List Token))
  | next (rest : List Token) (paper : Paper)
deriving Repr, DecidableEq

/-- The category handling of `parsePaper` (search.go lines 223-229): append
the value of the first attribute whose local name is "term", if any. -/
def categoryTerm (attrs : List XmlAttr) (paper : Paper) : Paper :=
  match attrs.find? (fun attr => attr.Name.Local = "term") with
  | some attr => { paper with Categories := paper.Categories ++ [attr.Value] }
  | none => paper

/-- Model of the body of the `for` loop of `parsePaper` (search.go lines
150-273), applied to the token just read and the unread rest: the entry's
end tag (any namespace) finishes with the paper built so far; recognized
namespace-qualified Atom and arXiv children update the paper; all other
tokens are skipped. -/
def parsePaperStep (t : Token) (rest : List Token) (paper : Paper) : LoopStep :=
  match t with
  | .EndElement n =>
    if n.Local = "entry" then .done (.ok (paper, rest)) else .next rest paper
  | .CharData _ => .next rest paper
  | .StartElement n attrs =>
    if n.Space = spaceAtom then
      if n.Local = "id" then
        match getInnerValue rest paper.URL with
        | .error e => .done (.error e)
        | .ok (v, rest2) => .next rest2 { paper with URL := v }
      else if n.Local = "title" then
        match getInnerValue rest paper.Title with
        | .error e => .done (.error e)
        | .ok (v, rest2) => .next rest2 { paper with Title := normalizeWS v }
      else if n.Local = "summary" then
        match getInnerValue rest paper.Summary with
        | .error e => .done (.error e)
        | .ok (v, rest2) => .next rest2 { paper with Summary := normalizeWS v }
      else if n.Local = "updated" then
        match getInnerValue rest "" with
        | .error e => .done (.error e)
        | .ok (v, rest2) =>
          match parseRFC3339 v with
          | some t => .next rest2 { paper with Updated := some t }
          | none => .next rest2 paper
      else if n.Local = "published" then
        match getInnerValue rest "" with
        | .error e => .done (.error e)
        | .ok (v, rest2) =>
          match parseRFC3339 v with
          | some t => .next rest2 { paper with Published := some t }
          | none => .next rest2 paper
      else if n.Local = "author" then
        match parseAuthor rest {} with
        | .error e => .done (.error e)
        | .ok (a, rest2) =>
          .next rest2 { paper with Authors := paper.Authors ++ [a] }
      else if n.Local = "category" then
        match rest with
        | .EndElement _ :: rest2 => .next rest2 (categoryTerm attrs paper)
        | .StartElement _ _ :: _ => .done (.error .expectedEnd)
        | .CharData _ :: _ => .done (.error .expectedEnd)
        | [] => .done (.error .eof)
      else .next rest paper
    else if n.Space = spaceArXiv then
      if n.Local = "doi" then
        match getInnerValue rest paper.DOI with
        | .error e => .done (.error e)
        | .ok (v, rest2) => .next rest2 { paper with DOI := v }
      else if n.Local = "journal_ref" then
        match getInnerValue rest paper.Journal with
        | .error e => .done (.error e)
        | .ok (v, rest2) => .next rest2 { paper with Journal := v }
      else if n.Local = "comment" then
        match getInnerValue rest paper.Comment with
        | .error e => .done (.error e)
        | .ok (v, rest2) =>
          .next rest2
            { paper with Comment := v, Pages := pagesAux v.toList paper.Pages }
      else .next rest paper
    else .next rest paper

theorem parsePaperStep_next_length (t : Token) (rest : List Token) (paper : Paper) :
    ∀ (rest2 : List Token) (p2 : Paper),
      parsePaperStep t rest paper = .next rest2 p2 → rest2.length ≤ rest.length := by
  intro rest2 p2 h
  unfold parsePaperStep at h
  repeat' (split at h)
  all_goals try (exact LoopStep.noConfusion h)
  all_goals injection h with h1 h2
  all_goals subst h1
  all_goals try subst_vars
  all_goals try simp only [List.length_cons]
  all_goals first
    | omega
    | (have hbnd := getInnerValue_length _ _ _ _ (by assumption)
       omega)
    | (have hbnd := parseAuthor_length _ _ _ _ (by assumption)
       omega)

theorem parsePaperStep_done_length (t : Token) (rest : List Token) (paper : Paper) :
    ∀ (p2 : Paper) (rest2 : List Token),
      parsePaperStep t rest paper = .done (.ok (p2, rest2)) → rest2.length ≤ rest.length := by
  intro p2 rest2 h
  unfold parsePaperStep at h
  repeat' (split at h)
  all_goals try (exact LoopStep.noConfusion h)
  all_goals simp only [LoopStep.done.injEq] at h
  all_goals try (exact Except.noConfusion h)
  all_goals simp only [Except.ok.injEq, Prod.mk.injEq] at h
  all_goals obtain ⟨-, h2⟩ := h
  all_goals subst h2
  all_goals omega

/-- Model of `parsePaper` (search.go lines 150-273): run the loop body until
it finishes; end of stream returns the paper built so far. -/
def parsePaper (toks : List Token) (paper : Paper) : Except Err (Paper × List Token) :=
  match toks with
  | [] => .ok (paper, [])
  | t :: rest =>
    match h : parsePaperStep t rest paper with
    | .done r => r
    | .next rest2 paper2 => parsePaper rest2 paper2
termination_by toks.length
decreasing_by
  · have := parsePaperStep_next_length _ _ _ _ _ h
    simp only [List.length_cons]
    omega

theorem parsePaper_length (toks : List Token) :
    ∀ (p p' : Paper) (rest : List Token),
      parsePaper toks p = .ok (p', rest) → rest.length ≤ toks.length := by
  suffices H : ∀ (n : Nat) (toks : List Token), toks.length ≤ n →
      ∀ (p p' : Paper) (rest : List Token),
        parsePaper toks p = .ok (p', rest) → rest.length ≤ toks.length from
    fun p p' rest h => H toks.length toks le_rfl p p' rest h
  intro n
  induction n with
  | zero =>
    intro toks hle p p' rest h
    have hnil : toks = [] := List.length_eq_zero.mp (Nat.le_zero.mp hle)
    subst hnil
    simp only [parsePaper, Except.ok.injEq, Prod.mk.injEq] at h
    rw [← h.2]
  | succ n ih =>
    intro toks hle p p' rest h
    match toks with
    | [] =>
      simp only [parsePaper, Except.ok.injEq, Prod.mk.injEq] at h
      rw [← h.2]
    | t :: rest1 =>
      simp only [parsePaper] at h
      split at h
      · next r heq =>
        subst h
        have := parsePaperStep_done_length _ _ _ _ _ heq
        simp only [List.length_cons]
        omega
      · next rest2 paper2 heq =>
        have hstep := parsePaperStep_next_length _ _ _ _ _ heq
        have := ih rest2 (by simp only [List.length_cons] at hle; omega) _ _ _ h
        simp only [List.length_cons]
        omega
theorem parsePaper_nil (p : Paper) : parsePaper [] p = .ok (p, []) := by
  simp only [parsePaper]

theorem parsePaper_cons_done (t : Token) (rest : List Token) (p : Paper)
    (r : Except Err (Paper × List Token)) (h : parsePaperStep t rest p = .done r) :
    parsePaper (t :: rest) p = r := by
  simp only [parsePaper]
  split
  · next r2 heq =>
    rw [h] at heq
    injection heq with h1
    exact h1.symm
  · next rest2 paper2 heq =>
    rw [h] at heq
    exact LoopStep.noConfusion heq

theorem parsePaper_cons_next (t : Token) (rest rest2 : List Token) (p p2 : Paper)
    (h : parsePaperStep t rest p = .next rest2 p2) :
    parsePaper (t :: rest) p = parsePaper rest2 p2 := by
  simp only [parsePaper]
  split
  · next r2 heq =>
    rw [h] at heq
    exact LoopStep.noConfusion heq
  · next rest3 paper3 heq =>
    rw [h] at heq
    injection heq with hr hp
    rw [← hr, ← hp]

/-- Model of the entry loop of `Search` (search.go lines 52-81): scan the
top-level tokens; every Atom-namespaced "entry" start element opens a fresh
record handed to `parsePaper`; a parsed record whose Title equals "error"
case-insensitively aborts with a `SearchError` carrying that record's
Summary (the Go function then returns a nil record slice — the model's
`.error` carries no records); end of stream yields the accumulated
records. -/
def searchLoop (toks : List Token) (out : List Paper) : Except Err (List Paper) :=
  match toks with
  | [] => .ok out
  | .StartElement n attrs :: rest =>
    if n.Local = "entry" ∧ n.Space = spaceAtom then
      match h : parsePaper rest {} with
      | .error e => .error e
      | .ok (paper, rest2) =>
        if eqFold paper.Title "error" = true then .error (.search paper.Summary)
        else searchLoop rest2 (out ++ [paper])
    else searchLoop rest out
  | .EndElement _ :: rest => searchLoop rest out
  | .CharData _ :: rest => searchLoop rest out
termination_by toks.length
decreasing_by
  · have := parsePaper_length _ _ _ _ h
    simp only [List.length_cons]
    omega
  · simp
  · simp
  · simp

/-- Model of `Search` after the transport call (search.go lines 51-81): the
response token stream decoded into an ordered paper sequence or an error. -/
def searchTokens (toks : List Token) : Except Err (List Paper) := searchLoop toks []

/-- C9: the Record Parser finishes on any end tag whose local name is
"entry" and the Author Parser on any end tag whose local name is "author",
whatever namespace the end tag carries — namespace qualification is applied
to start elements only. -/
theorem end_tag_namespace_ignored :
    ∀ (ns : String) (rest : List Token) (p : Paper) (a : Author),
      parsePaper (.EndElement ⟨ns, "entry"⟩ :: rest) p = .ok (p, rest) ∧
      parseAuthor (.EndElement ⟨ns, "author"⟩ :: rest) a = .ok (a, rest) := by
  intro ns rest p a
  constructor
  · exact parsePaper_cons_done _ _ _ _ (by simp [parsePaperStep])
  · simp [parseAuthor]

/-- C7: an Atom "updated" or "published" element whose text fails to parse
as RFC 3339 is a complete no-op — no error escapes, the timestamp field is
left exactly as it was (its zero value on a fresh record), and the rest of
the record is parsed as if the element were absent. -/
theorem timestamp_parse_failure_swallowed :
    ∀ (s : String) (attrs : List XmlAttr) (n2 : XmlName) (rest : List Token) (p : Paper),
      parseRFC3339 s = none →
      parsePaper (.StartElement ⟨spaceAtom, "updated"⟩ attrs :: .CharData s ::
          .EndElement n2 :: rest) p = parsePaper rest p ∧
      parsePaper (.StartElement ⟨spaceAtom, "published"⟩ attrs :: .CharData s ::
          .EndElement n2 :: rest) p = parsePaper rest p := by
  intro s attrs n2 rest p hfail
  constructor
  · exact parsePaper_cons_next _ _ _ _ _
      (by simp [parsePaperStep, getInnerValue, hfail, spaceAtom])
  · exact parsePaper_cons_next _ _ _ _ _
      (by simp [parsePaperStep, getInnerValue, hfail, spaceAtom])

/-- C7 witness: the "updated" clause of `timestamp_parse_failure_swallowed`
at the unparseable text "not-a-date" on a fresh record. -/
theorem timestamp_parse_failure_swallowed_witness :
    parseRFC3339 "not-a-date" = none ∧
    parsePaper [Token.StartElement ⟨spaceAtom, "updated"⟩ [], Token.CharData "not-a-date",
      Token.EndElement ⟨spaceAtom, "updated"⟩] ({} : Paper) = parsePaper [] ({} : Paper) :=
  ⟨by decide,
    (timestamp_parse_failure_swallowed "not-a-date" [] ⟨spaceAtom, "updated"⟩ [] {}
      (by decide)).1⟩

/-- C2: whenever the entry loop reaches an Atom "entry" element whose record
parses with a Title equal to "error" case-insensitively, the search aborts
with a `SearchError` whose message is exactly that record's Summary;
whatever records were accumulated (and whatever tokens remain) are
discarded, so zero records reach the caller. -/
theorem searchLoop_error_entry :
    ∀ (attrs : List XmlAttr) (rest : List Token) (out : List Paper) (p : Paper)
      (rest2 : List Token),
      parsePaper rest {} = .ok (p, rest2) →
      eqFold p.Title "error" = true →
      searchLoop (.StartElement ⟨spaceAtom, "entry"⟩ attrs :: rest) out
        = .error (.search p.Summary) := by
  intro attrs rest out p rest2 h1 h2
  simp only [searchLoop]
  split
  · split
    · next e heq =>
      rw [h1] at heq
      exact Except.noConfusion heq
    · next paper rest3 heq =>
      rw [h1] at heq
      injection heq with hinj
      have hp : p = paper := congrArg Prod.fst hinj
      subst hp
      rw [if_pos h2]
  · next hcond => exact absurd (by simp) hcond

/-- C2 witness: a response with one pseudo-entry titled "Error" and summary
"malformed query" aborts with `SearchError "malformed query"`. -/
theorem searchLoop_error_entry_witness :
    (∃ (p : Paper) (rest2 : List Token),
      parsePaper [Token.StartElement ⟨spaceAtom, "title"⟩ [], Token.CharData "Error",
        Token.EndElement ⟨spaceAtom, "title"⟩,
        Token.StartElement ⟨spaceAtom, "summary"⟩ [], Token.CharData "malformed query",
        Token.EndElement ⟨spaceAtom, "summary"⟩,
        Token.EndElement ⟨spaceAtom, "entry"⟩] ({} : Paper) = .ok (p, rest2) ∧
      eqFold p.Title "error" = true ∧ p.Summary = "malformed query") ∧
    searchLoop (Token.StartElement ⟨spaceAtom, "entry"⟩ [] ::
        [Token.StartElement ⟨spaceAtom, "title"⟩ [], Token.CharData "Error",
         Token.EndElement ⟨spaceAtom, "title"⟩,
         Token.StartElement ⟨spaceAtom, "summary"⟩ [], Token.CharData "malformed query",
         Token.EndElement ⟨spaceAtom, "summary"⟩,
         Token.EndElement ⟨spaceAtom, "entry"⟩]) []
      = .error (.search "malformed query") := by
  have s1 : parsePaperStep (Token.StartElement ⟨spaceAtom, "title"⟩ [])
      [Token.CharData "Error", Token.EndElement ⟨spaceAtom, "title"⟩,
       Token.StartElement ⟨spaceAtom, "summary"⟩ [], Token.CharData "malformed query",
       Token.EndElement ⟨spaceAtom, "summary"⟩,
       Token.EndElement ⟨spaceAtom, "entry"⟩] ({} : Paper)
      = .next [Token.StartElement ⟨spaceAtom, "summary"⟩ [],
          Token.CharData "malformed query", Token.EndElement ⟨spaceAtom, "summary"⟩,
          Token.EndElement ⟨spaceAtom, "entry"⟩] { Title := "Error" } := by decide
  have s2 : parsePaperStep (Token.StartElement ⟨spaceAtom, "summary"⟩ [])
      [Token.CharData "malformed query", Token.EndElement ⟨spaceAtom, "summary"⟩,
       Token.EndElement ⟨spaceAtom, "entry"⟩] { Title := "Error" }
      = .next [Token.EndElement ⟨spaceAtom, "entry"⟩]
          { Title := "Error", Summary := "malformed query" } := by decide
  have s3 : parsePaperStep (Token.EndElement ⟨spaceAtom, "entry"⟩) []
      ({ Title := "Error", Summary := "malformed query" } : Paper)
      = .done (.ok ({ Title := "Error", Summary := "malformed query" }, [])) := by decide
  have hparse : parsePaper [Token.StartElement ⟨spaceAtom, "title"⟩ [],
      Token.CharData "Error", Token.EndElement ⟨spaceAtom, "title"⟩,
      Token.StartElement ⟨spaceAtom, "summary"⟩ [], Token.CharData "malformed query",
      Token.EndElement ⟨spaceAtom, "summary"⟩,
      Token.EndElement ⟨spaceAtom, "entry"⟩] ({} : Paper)
      = .ok ({ Title := "Error", Summary := "malformed query" }, []) := by
    rw [parsePaper_cons_next _ _ _ _ _ s1, parsePaper_cons_next _ _ _ _ _ s2,
      parsePaper_cons_done _ _ _ _ s3]
  refine ⟨⟨{ Title := "Error", Summary := "malformed query" }, [], hparse, by decide, rfl⟩, ?_⟩
  exact searchLoop_error_entry _ _ _ _ _ hparse (by decide)

end Arxiv
